import Mathlib

set_option maxRecDepth 8000

/-!
Verification of the lightning clustering and stitching core of the
`lightning_research_application` repository.

The development shallowly embeds the Python source files
`lightning_parser_lib/number_crunchers/toolbox.py`,
`lightning_parser_lib/number_crunchers/lightning_bucketer.py` and
`lightning_parser_lib/number_crunchers/lightning_stitcher.py`.
Floating point numbers are modelled as rationals, NumPy arrays as lists,
and the fallible NumPy fancy-indexing (which raises `IndexError` on an
out-of-range index) as `Option`-valued extraction.  Python `set`
iteration order (used when converting sets of event indices back to
lists) is unspecified in the source; it is modelled here as
first-occurrence order, which no claim below depends on.
-/

/-- One event row of the table: coordinates `x`, `y`, `z` (meters) and
`time_unix` (seconds), modelled as rationals.  Mirrors the columns the
core reads from the DataFrame. -/
structure Event where
  x : ℚ
  y : ℚ
  z : ℚ
  t : ℚ
deriving DecidableEq

def defaultEvent : Event := ⟨0, 0, 0, 0⟩

/-- Row lookup in the event table (a list of rows, positionally indexed). -/
def evAt (tbl : List Event) (i : Nat) : Event := tbl.getD i defaultEvent

/-- Squared Euclidean distance `dx*dx + dy*dy + dz*dz`, as computed in both
`_group_process` and `stitch_lightning_strike`. -/
def d2 (a b : Event) : ℚ :=
  (a.x - b.x) * (a.x - b.x) + (a.y - b.y) * (a.y - b.y) + (a.z - b.z) * (a.z - b.z)

/-- The dt² floor `np.where(dt_squared < 1e-5, 1e-5, dt_squared)` used to
avoid division blow-up in the speed computations. -/
def flooredSq (q : ℚ) : ℚ := if q < 1 / 100000 then 1 / 100000 else q

/-- The parameter dictionary handed to `bucket_dataframe_lightnings` /
`stitch_lightning_strike(s)`: each recognized key is either present
(`some`) or absent (`none`, so that `params.get(key, default)` falls back
to the consumer's default). -/
structure RawParams where
  maxLightningTimeThreshold : Option ℚ
  maxLightningDuration : Option ℚ
  maxLightningDist : Option ℚ
  maxLightningSpeed : Option ℚ
  minLightningSpeed : Option ℚ
  minLightningPoints : Option Nat
  combineStrikesWithInterceptingTimes : Option Bool
  interceptingTimesExtensionBuffer : Option ℚ
  interceptingTimesExtensionMaxDistance : Option ℚ

/-- The default speed of light value `299792.458` m/s. -/
def speedOfLight : ℚ := 299792458 / 1000

/-- Parameters of `stitch_lightning_strike` after its `params.get` calls. -/
structure StitchParams where
  maxTimeThreshold : ℚ
  maxDist : ℚ
  maxSpeed : ℚ
  minSpeed : ℚ
  minPts : Nat

/-- The `params.get(..., default)` resolution at the top of
`stitch_lightning_strike` (lightning_stitcher.py lines 70-74). -/
def resolveStitch (p : RawParams) : StitchParams :=
  ⟨p.maxLightningTimeThreshold.getD 1, p.maxLightningDist.getD 50000,
   p.maxLightningSpeed.getD speedOfLight, p.minLightningSpeed.getD 0,
   p.minLightningPoints.getD 300⟩

/-- Parameters of `_bucket_dataframe_lightnings` / `_group_process`. -/
structure ClusterParams where
  maxTimeThreshold : ℚ
  maxDuration : ℚ
  maxDist : ℚ
  maxSpeed : ℚ
  minSpeed : ℚ
  minPts : Nat

/-- `params.get("max_lightning_duration", 20.0)` as performed by
`bucket_dataframe_lightnings` (lightning_bucketer.py line 335). -/
def bucketerMaxDuration (p : RawParams) : ℚ := p.maxLightningDuration.getD 20

/-- `params.get("max_lightning_duration", 10)` as performed by the chain
merger in `stitch_lightning_strikes` (lightning_stitcher.py line 187). -/
def mergerMaxDuration (p : RawParams) : ℚ := p.maxLightningDuration.getD 10

/-- The `params.get` resolution in `bucket_dataframe_lightnings`
(lightning_bucketer.py lines 332-340). -/
def resolveCluster (p : RawParams) : ClusterParams :=
  ⟨p.maxLightningTimeThreshold.getD 1, bucketerMaxDuration p, p.maxLightningDist.getD 50000,
   p.maxLightningSpeed.getD speedOfLight, p.minLightningSpeed.getD 0,
   p.minLightningPoints.getD 300⟩

/-- Parameters of the chain-merging pass of `stitch_lightning_strikes`
(lightning_stitcher.py lines 184-189). -/
structure MergeParams where
  combine : Bool
  extBuffer : ℚ
  maxDuration : ℚ
  maxDistance : ℚ

def resolveMerge (p : RawParams) : MergeParams :=
  ⟨p.combineStrikesWithInterceptingTimes.getD true, p.interceptingTimesExtensionBuffer.getD 10,
   mergerMaxDuration p, p.interceptingTimesExtensionMaxDistance.getD 15000⟩

/-- Loop body of `toolbox.chunk_items`: `bin` is the keys of the current
chunk, `size` the running total of their counts.  A chunk is yielded when
it is non-empty and adding the next count would exceed `maxChunkSize`. -/
def chunkAux {α : Type} (maxChunkSize : Nat) : List (α × Nat) → List α → Nat → List (List α)
  | [], bin, _ => if bin.isEmpty then [] else [bin]
  | (k, c) :: rest, bin, size =>
    if !bin.isEmpty && decide (maxChunkSize < size + c) then
      bin :: chunkAux maxChunkSize rest [k] c
    else chunkAux maxChunkSize rest (bin ++ [k]) (size + c)

/-- `toolbox.chunk_items`: splits the (insertion-ordered) counter items
into chunks whose counts total at most `maxChunkSize`, except that a
single oversized item occupies a chunk alone. -/
def chunk_items {α : Type} (counter : List (α × Nat)) (maxChunkSize : Nat) : List (List α) :=
  chunkAux maxChunkSize counter [] 0

/-- A strike-in-progress of `_group_process`: positions (within the coarse
group) of its member events, together with the cached coordinate/time
entries of those members (the parallel `x`/`y`/`z`/`unix` lists of the
source, zipped into `Event`s). -/
structure CandidateSubgroup where
  indices : List Nat
  evs : List Event

/-- `np.array(sg["unix"])[0]`: the time of the first (earliest appended)
member of a subgroup. -/
def firstT (sg : CandidateSubgroup) : ℚ := (sg.evs.headD defaultEvent).t

/-- The acceptance test of `_group_process` (lightning_bucketer.py lines
85-110) deciding whether event `e` may be attached to subgroup `sg`:
some member is within `maxTimeThreshold` in time; among those members,
some is within `maxDist` in distance, and some (not necessarily the same
one) has floored squared speed within `[minSpeed², maxSpeed²]`; and
attaching keeps `e.t - firstT sg ≤ maxDuration`. -/
def accepts (P : ClusterParams) (e : Event) (sg : CandidateSubgroup) : Bool :=
  let cand := sg.evs.filter (fun m => decide (|e.t - m.t| ≤ P.maxTimeThreshold))
  if cand.isEmpty then false
  else if cand.any (fun m => decide (d2 m e ≤ P.maxDist ^ 2)) then
    if cand.any (fun m =>
        let s2 := d2 m e / flooredSq ((e.t - m.t) * (e.t - m.t))
        decide (P.minSpeed ^ 2 ≤ s2) && decide (s2 ≤ P.maxSpeed ^ 2)) then
      decide (e.t - firstT sg ≤ P.maxDuration)
    else false
  else false

/-- Attaching event `e` (group position `j`) to a subgroup: appends to the
`indices` list and the cached data lists. -/
def attachTo (sg : CandidateSubgroup) (j : Nat) (e : Event) : CandidateSubgroup :=
  ⟨sg.indices ++ [j], sg.evs ++ [e]⟩

/-- The `for sg in sub_groups: ... break` search of `_group_process`: the
first open subgroup accepting the event receives it (in place); `none`
when no subgroup accepts. -/
def tryAttach (P : ClusterParams) (j : Nat) (e : Event) :
    List CandidateSubgroup → Option (List CandidateSubgroup)
  | [] => none
  | sg :: rest =>
    if accepts P e sg then some (attachTo sg j e :: rest)
    else (tryAttach P j e rest).map (fun l => sg :: l)

/-- One iteration of the per-event loop of `_group_process` (lines 63-128):
first finalize (emit) every open subgroup whose duration the current event
exceeds and that has at least `minPts` members, discard the other overdue
ones, then attach the event to the first accepting subgroup or open a new
singleton subgroup. -/
def processEvent (P : ClusterParams) (st : List CandidateSubgroup × List (List Nat))
    (je : Nat × Event) : List CandidateSubgroup × List (List Nat) :=
  let sgs := st.1
  let fin := st.2
  let j := je.1
  let e := je.2
  let fin2 := fin ++ (sgs.filter (fun sg =>
      decide (P.maxDuration < e.t - firstT sg) && decide (P.minPts ≤ sg.indices.length))).map
      (fun sg => sg.indices)
  let kept := sgs.filter (fun sg => decide (e.t - firstT sg ≤ P.maxDuration))
  match tryAttach P j e kept with
  | some sgs2 => (sgs2, fin2)
  | none => (kept ++ [⟨[j], [e]⟩], fin2)

/-- `(j, e)` enumeration of a list starting at position `n`. -/
def enumFromL (n : Nat) : List Event → List (Nat × Event)
  | [] => []
  | e :: rest => (n, e) :: enumFromL (n + 1) rest

/-- The clustering of one coarse group by `_group_process` (lines 61-134),
in terms of positions within the group: the per-event loop followed by the
final emission of remaining subgroups with at least `minPts` members. -/
def clusterGroup (P : ClusterParams) (evs : List Event) : List (List Nat) :=
  let res := (enumFromL 0 evs).foldl (processEvent P) ([], [])
  res.2 ++ (res.1.filter (fun sg => decide (P.minPts ≤ sg.indices.length))).map
    (fun sg => sg.indices)

/-- `timeGroups` helper: walks the remaining times carrying the previous
time and the current group id. -/
def timeGroupsAux (thr : ℚ) : ℚ → Nat → List ℚ → List Nat
  | _, _, [] => []
  | prev, g, t :: rest =>
    let g2 := if thr < t - prev then g + 1 else g
    g2 :: timeGroupsAux thr t g2 rest

/-- The per-event time-group ids of `_bucket_dataframe_lightnings` (lines
178-186): `np.concatenate(([0], np.cumsum(np.diff(times) > thr)))`.  Note
that for an empty time list this still produces the single id `[0]`,
exactly as the source does. -/
def timeGroups (thr : ℚ) (times : List ℚ) : List Nat :=
  0 :: (match times with
        | [] => []
        | t :: rest => timeGroupsAux thr t 0 rest)

/-- First-occurrence deduplication; models the insertion order of a Python
`Counter` / the order of `list(set(...))` over small ints. -/
def firstOccur {α : Type} [DecidableEq α] (l : List α) : List α :=
  l.foldl (fun acc x => if x ∈ acc then acc else acc ++ [x]) []

/-- `Counter(group_ids)` as an insertion-ordered association list of
(group id, count). -/
def counterOf (gids : List Nat) : List (Nat × Nat) :=
  (firstOccur gids).map (fun g => (g, gids.count g))

/-- `np.where(group_ids == group)[0]`: ascending positions carrying the
given group id. -/
def groupPositions (gids : List Nat) (g : Nat) : List Nat :=
  (List.range gids.length).filter (fun i => gids.getD i 0 == g)

/-- NumPy fancy indexing `arr[ix]`: `none` models the `IndexError` raised
when some index is out of range. -/
def extractAt {α : Type} (l : List α) (ix : List Nat) : Option (List α) :=
  ix.mapM (fun i => l.get? i)

/-- Processing of one coarse group inside `_group_process` (lines 49-134):
groups with fewer than `minPts` events are skipped before extraction; the
clustering result is mapped back through `group_indices` to table
positions. -/
def clusterGroupGlobal (P : ClusterParams) (evs : List Event) (gids : List Nat) (g : Nat) :
    Option (List (List Nat)) :=
  let gi := groupPositions gids g
  if gi.length < P.minPts then some []
  else
    (extractAt evs gi).map (fun gevs =>
      (clusterGroup P gevs).map (fun cl => cl.map (fun idx => gi.getD idx 0)))

/-- `_group_process` over one chunk of group ids: concatenates the
per-group cluster lists in chunk order. -/
def groupProcess (P : ClusterParams) (evs : List Event) (gids : List Nat)
    (chunk : List Nat) : Option (List (List Nat)) :=
  (chunk.mapM (clusterGroupGlobal P evs gids)).map List.flatten

/-- `_bucket_dataframe_lightnings` after the sort (lines 177-214): group
ids from time gaps, a counter over them, chunking, and concatenation of
the per-chunk `_group_process` results in chunk order. -/
def bucketStrikesCore (P : ClusterParams) (evs : List Event) (maxChunk : Nat) :
    Option (List (List Nat)) :=
  let gids := timeGroups P.maxTimeThreshold (evs.map (fun e => e.t))
  let counter := counterOf gids
  let chunks := chunk_items counter maxChunk
  (chunks.mapM (groupProcess P evs gids)).map List.flatten

/-- `df.sort_values(by="time_unix")`: the event table sorted ascending by
time (modelled as a stable merge sort). -/
def sortEventsByTime (events : List Event) : List Event :=
  events.mergeSort (fun a b => decide (a.t ≤ b.t))

/-- The predecessor mask of `stitch_lightning_strike` (lines 108-135) for
predecessor `p` of current event `e`: squared distance within
`maxDist²`, floored squared speed within `[minSpeed², maxSpeed²]`, and
floored squared time difference within `maxTimeThreshold²`. -/
def maskOk (S : StitchParams) (p e : Event) : Bool :=
  let dd := d2 p e
  let fdt := flooredSq ((e.t - p.t) * (e.t - p.t))
  let s2 := dd / fdt
  decide (dd ≤ S.maxDist ^ 2) && decide (s2 ≤ S.maxSpeed ^ 2) &&
    decide (S.minSpeed ^ 2 ≤ s2) && decide (fdt ≤ S.maxTimeThreshold ^ 2)

/-- The masked predecessors (`np.where(mask)[0]`) paired with their squared
distances, positions counted from `i`. -/
def maskedCandidatesAux (S : StitchParams) (e : Event) : Nat → List Event → List (Nat × ℚ)
  | _, [] => []
  | i, p :: rest =>
    (if maskOk S p e then [(i, d2 p e)] else []) ++ maskedCandidatesAux S e (i + 1) rest

def maskedCandidates (S : StitchParams) (e : Event) (pre : List Event) : List (Nat × ℚ) :=
  maskedCandidatesAux S e 0 pre

/-- `np.argmin` over a (position, value) list: the first entry attaining
the minimum value. -/
def argminAux : List (Nat × ℚ) → Option (Nat × ℚ)
  | [] => none
  | (i, v) :: rest =>
    match argminAux rest with
    | none => some (i, v)
    | some (j, w) => if v ≤ w then some (i, v) else some (j, w)

/-- Parent selection for the current event (lines 97-146): `none` when no
predecessor passes the mask, otherwise the correlation
`(parsed[argmin], current)`. -/
def stitchPick (S : StitchParams) (tbl : List Event) (parsed : List Nat) (idx : Nat) :
    Option (Nat × Nat) :=
  match argminAux (maskedCandidates S (evAt tbl idx) (parsed.map (evAt tbl))) with
  | none => none
  | some kv => some (parsed.getD kv.1 0, idx)

/-- The main loop of `stitch_lightning_strike` (lines 94-149): each event
is matched against all already-parsed events and then appended to
`parsed_indices` whether or not an edge was emitted. -/
def stitchCorrAux (S : StitchParams) (tbl : List Event) : List Nat → List Nat → List (Nat × Nat)
  | _, [] => []
  | parsed, idx :: rest =>
    (match stitchPick S tbl parsed idx with
     | none => []
     | some pc => [pc]) ++ stitchCorrAux S tbl (parsed ++ [idx]) rest

/-- `sorted(strike_indeces, key=time_unix)` (line 78). -/
def sortStrike (tbl : List Event) (ix : List Nat) : List Nat :=
  ix.mergeSort (fun a b => decide ((evAt tbl a).t ≤ (evAt tbl b).t))

/-- Undirected adjacency of the correlation graph built by
`filter_correlations_by_chain_size` (lines 24-27). -/
def adjacentB (corr : List (Nat × Nat)) (a b : Nat) : Bool :=
  corr.any (fun pc => (pc.1 == a && pc.2 == b) || (pc.1 == b && pc.2 == a))

/-- The node set of the correlation graph (the keys of `graph`). -/
def nodesOf (corr : List (Nat × Nat)) : Finset Nat :=
  corr.foldr (fun pc s => insert pc.1 (insert pc.2 s)) ∅

/-- One expansion step of the traversal: add every graph node adjacent to
the set collected so far. -/
def stepComp (corr : List (Nat × Nat)) (s : Finset Nat) : Finset Nat :=
  s ∪ (nodesOf corr).filter (fun b => ∃ a ∈ s, adjacentB corr a b = true)

/-- The connected component of `v`, as computed by the iterative traversal
of `filter_correlations_by_chain_size` (lines 33-44); the stack-based DFS
of the source is modelled as iterating the expansion step to its fixpoint
(reached within `card + 1` steps). -/
def compOf (corr : List (Nat × Nat)) (v : Nat) : Finset Nat :=
  (stepComp corr)^[(nodesOf corr).card + 1] {v}

/-- Membership of `v` in `valid_nodes`: its component has at least
`minPts` nodes. -/
def validNode (corr : List (Nat × Nat)) (minPts : Nat) (v : Nat) : Bool :=
  decide (minPts ≤ (compOf corr v).card)

/-- `filter_correlations_by_chain_size` (lines 7-47): keep, in input
order, the correlations both of whose endpoints lie in a component of at
least `minPts` nodes. -/
def filter_correlations_by_chain_size (corr : List (Nat × Nat)) (minPts : Nat) :
    List (Nat × Nat) :=
  corr.filter (fun pc => validNode corr minPts pc.1 && validNode corr minPts pc.2)

/-- `stitch_lightning_strike` (lines 51-154): resolve parameters, sort the
strike indices by time, run the correlation loop, and filter by chain
size. -/
def stitch_lightning_strike (strikeIndices : List Nat) (tbl : List Event) (p : RawParams) :
    List (Nat × Nat) :=
  let S := resolveStitch p
  let sorted := sortStrike tbl strikeIndices
  let correlations := stitchCorrAux S tbl [] sorted
  filter_correlations_by_chain_size correlations S.minPts

/-- All endpoints of a correlation list, in pair order (the iteration
`{idx for pair in correlations for idx in pair}` before set dedup). -/
def flattenPairs (corr : List (Nat × Nat)) : List Nat :=
  corr.foldr (fun pc acc => pc.1 :: pc.2 :: acc) []

/-- `sorted(correlations, key=all_times[corr[0]])`: correlations sorted by
parent event time. -/
def sortByParentTime (tbl : List Event) (corr : List (Nat × Nat)) : List (Nat × Nat) :=
  corr.mergeSort (fun a b => decide ((evAt tbl a.1).t ≤ (evAt tbl b.1).t))

/-- The merge test of `stitch_lightning_strikes` (lines 216-236) between
the candidate chain (window `[startTime, endTime]`, spatial `anchor`) and
an existing merged chain `tc`: window interception, the window-gap bound
against `maxDuration`, and some event of `tc` within `maxDistance` of the
anchor. -/
def mergeCond (tbl : List Event) (M : MergeParams) (startTime endTime : ℚ) (anchor : Event)
    (tc : List (Nat × Nat)) : Bool :=
  let tempStart := (evAt tbl (tc.headD (0, 0)).1).t
  let tempEnd := (evAt tbl (tc.getLastD (0, 0)).2).t + M.extBuffer
  let withinDuration := decide (max |endTime - tempStart| |startTime - tempEnd| < M.maxDuration)
  let interceptWindow := decide (tempStart < startTime) && decide (startTime < tempEnd)
  let uniq := firstOccur (flattenPairs tc)
  let anyClose := uniq.any (fun i => decide (d2 (evAt tbl i) anchor ≤ M.maxDistance ^ 2))
  interceptWindow && withinDuration && anyClose

/-- The first-fit search over already-merged chains (lines 216-246): the
first chain passing `mergeCond` is re-stitched together with the candidate
and replaced in place; `none` when no chain matches. -/
def mergeScan (tbl : List Event) (p : RawParams) (M : MergeParams)
    (sortedCorr : List (Nat × Nat)) (startTime endTime : ℚ) (anchor : Event) :
    List (List (Nat × Nat)) → Option (List (List (Nat × Nat)))
  | [] => none
  | tc :: rest =>
    if mergeCond tbl M startTime endTime anchor tc then
      let combined := tc ++ sortedCorr
      let uniq := firstOccur (flattenPairs combined)
      let merged := stitch_lightning_strike uniq tbl p
      some (sortByParentTime tbl merged :: rest)
    else
      (mergeScan tbl p M sortedCorr startTime endTime anchor rest).map (fun l => tc :: l)

/-- One iteration of the combining loop (lines 199-249): empty candidate
chains are skipped; otherwise the candidate is merged into the first
matching existing chain or appended as a new entry. -/
def combineFold (tbl : List Event) (p : RawParams) (M : MergeParams)
    (temp : List (List (Nat × Nat))) (correlations : List (Nat × Nat)) :
    List (List (Nat × Nat)) :=
  if correlations.isEmpty then temp
  else
    let sortedCorr := sortByParentTime tbl correlations
    let startIdx := (sortedCorr.headD (0, 0)).1
    let endIdx := (sortedCorr.getLastD (0, 0)).2
    let startTime := (evAt tbl startIdx).t
    let endTime := (evAt tbl endIdx).t
    let anchor := evAt tbl startIdx
    match mergeScan tbl p M sortedCorr startTime endTime anchor temp with
    | some temp2 => temp2
    | none => temp ++ [sortedCorr]

/-- `stitch_lightning_strikes` (lines 157-252): stitch every bucket, then
optionally run the chain-merging pass. -/
def stitch_lightning_strikes (buckets : List (List Nat)) (tbl : List Event) (p : RawParams) :
    List (List (Nat × Nat)) :=
  let bucketed := buckets.map (fun ix => stitch_lightning_strike ix tbl p)
  let M := resolveMerge p
  if M.combine then bucketed.foldl (combineFold tbl p M) [] else bucketed

/-- `bucket_dataframe_lightnings` (lines 296-355), cache layer omitted:
sort the table and bucket it into raw strike clusters.  The call
`lightning_stitcher.stitch_lightning_strikes(raw_groups, df, params)` at
line 342 then passes the params dict as a third POSITIONAL argument, but
the callee's signature (lightning_stitcher.py line 157) is
`(bucketed_strike_indices, events, **params)` — two positional
parameters only — so every cache-miss run that reaches line 342 raises
`TypeError` there (modelled as `none`), and the stitching and
result-assembly code below that line is unreachable from this function.
If bucketing itself raised (`none`), that earlier error propagates. -/
def bucket_dataframe_lightnings (events : List Event) (p : RawParams) (maxChunk : Nat) :
    Option (List (List Nat) × List (List (Nat × Nat))) :=
  let evs := sortEventsByTime events
  (bucketStrikesCore (resolveCluster p) evs maxChunk).bind
    (fun _ => (none : Option (List (List Nat) × List (List (Nat × Nat)))))

/-- Spec-side notion for C2: the square of the true pairwise speed
`distance/dt` (no dt² floor), following the spec sentence "the pairwise
speed (distance/dt)". -/
def trueSpeedSq (a b : Event) : ℚ := d2 a b / ((b.t - a.t) * (b.t - a.t))

/-- Spec-side notion for C4: undirected adjacency of the correlation
graph, as a proposition. -/
def adjRel (corr : List (Nat × Nat)) (a b : Nat) : Prop :=
  (a, b) ∈ corr ∨ (b, a) ∈ corr

/-- Total count of a chunk segment (the running `current_size` of
`chunk_items` at the moment the segment is complete). -/
def segWeight {α : Type} (s : List (α × Nat)) : Nat := (s.map Prod.snd).sum

/-- Count of the first item of a segment. -/
def segHeadWeight {α : Type} : List (α × Nat) → Nat
  | [] => 0
  | p :: _ => p.2

/-- A parameter dictionary with every recognized key absent. -/
def exParamsNone : RawParams := ⟨none, none, none, none, none, none, none, none, none⟩

/-- Concrete parameters for the speed-gating analysis: a small
`max_lightning_speed` of 400 m/s and `min_lightning_points` of 2. -/
def exParamsSpeedCap : RawParams := ⟨none, none, none, some 400, none, some 2, none, none, none⟩

/-- Two events 1 m and 1 ms apart: true pairwise speed 1000 m/s. -/
def exTableSpeed : List Event := [⟨0, 0, 0, 0⟩, ⟨1, 0, 0, 1 / 1000⟩]

/-- A parameter dictionary with `min_lightning_points = 1`. -/
def exParamsMinPts1 : RawParams := ⟨none, none, none, none, none, some 1, none, none, none⟩

/-- Out-of-domain parameters: `min_lightning_speed = 10` exceeds
`max_lightning_speed = 1`. -/
def exParamsBadSpeeds : RawParams := ⟨none, none, none, some 1, some 10, some 1, none, none, none⟩

/-- A well-formed two-event table. -/
def exTableTwo : List Event := [⟨0, 0, 0, 0⟩, ⟨1, 0, 0, 1⟩]

/-- Concrete cluster parameters for witnesses. -/
def exClusterParams : ClusterParams := ⟨1, 10, 100, 1000000, 0, 1⟩

/-- A three-event group: the first two cluster, the third is 500 m away. -/
def exTableCluster : List Event := [⟨0, 0, 0, 0⟩, ⟨1, 0, 0, 1 / 2⟩, ⟨500, 0, 0, 1⟩]

/-- Loop invariant of an open `CandidateSubgroup` while `_group_process`
scans a group `evs` and is about to process position `p`: the cached
events are exactly the group rows at the member positions, the member
list is nonempty, all member positions are in range and below `p`, and
every member's time lies within `[first.t, first.t + D]` where `first` is
the earliest (first appended) member. -/
def SgInv (D : ℚ) (evs : List Event) (p : Nat) (sg : CandidateSubgroup) : Prop :=
  sg.evs = sg.indices.map (fun j => evs.getD j defaultEvent) ∧
  sg.indices ≠ [] ∧
  (∀ j ∈ sg.indices, j < evs.length ∧ j < p) ∧
  (∀ m ∈ sg.evs, (sg.evs.headD defaultEvent).t ≤ m.t ∧
    m.t - (sg.evs.headD defaultEvent).t ≤ D)

/-- Duration-boundedness of an emitted cluster of group positions. -/
def ClusterOk (D : ℚ) (evs : List Event) (cl : List Nat) : Prop :=
  ∀ i ∈ cl, i < evs.length ∧
    ∀ j ∈ cl, (evs.getD i defaultEvent).t - (evs.getD j defaultEvent).t ≤ D

theorem segWeight_append {α : Type} (a b : List (α × Nat)) :
    segWeight (a ++ b) = segWeight a + segWeight b := by
  simp [segWeight]

theorem chunkAux_spec {α : Type} (m : Nat) :
    ∀ (l binp : List (α × Nat)),
      ∃ segs : List (List (α × Nat)),
        segs.flatten = binp ++ l ∧
        chunkAux m l (binp.map Prod.fst) (segWeight binp) =
          segs.map (fun s => s.map Prod.fst) ∧
        (∀ s ∈ segs, s ≠ []) ∧
        (∀ s0 ∈ segs.head?, binp <+: s0) ∧
        (∀ s0 ∈ segs.head?, max binp.length 1 < s0.length → segWeight s0 ≤ m) ∧
        (∀ s ∈ segs.tail, 2 ≤ s.length → segWeight s ≤ m) ∧
        (∀ i, i + 1 < segs.length →
          m < segWeight (segs.getD i []) + segHeadWeight (segs.getD (i + 1) [])) := by
  intro l
  induction l with
  | nil =>
    intro binp
    cases hb : binp with
    | nil =>
      refine ⟨[], by simp, ?_, by simp, by simp, by simp, by simp, by simp⟩
      simp [chunkAux]
    | cons p ps =>
      refine ⟨[binp], by simp [hb], ?_, by simp [hb], by simp [hb], ?_, by simp, ?_⟩
      · simp [chunkAux, hb]
      · intro s0 hs0 hlen
        subst hb
        simp at hs0
        subst hs0
        simp at hlen
      · intro i hi
        simp at hi
  | cons kc rest ih =>
    intro binp
    obtain ⟨k, c⟩ := kc
    by_cases hcond : binp.map Prod.fst ≠ [] ∧ m < segWeight binp + c
    · obtain ⟨segs, hflat, heq, hne, hpre, hhead, htail, hbd⟩ := ih [(k, c)]
      refine ⟨binp :: segs, ?_, ?_, ?_, ?_, ?_, ?_, ?_⟩
      · simp [hflat]
      · have hc : chunkAux m ((k, c) :: rest) (binp.map Prod.fst) (segWeight binp) =
            binp.map Prod.fst :: chunkAux m rest [k] c := by
          rw [chunkAux]
          have h1 : binp.map Prod.fst ≠ [] := hcond.1
          have h2 : m < segWeight binp + c := hcond.2
          simp [h1, h2, List.isEmpty_iff]
        rw [hc]
        have : chunkAux m rest [k] c =
            chunkAux m rest ([(k, c)].map Prod.fst) (segWeight [(k, c)]) := by
          simp [segWeight]
        rw [this, heq]
        simp
      · intro s hs
        rcases List.mem_cons.mp hs with h | h
        · subst h
          intro hbe
          exact hcond.1 (by simp [hbe])
        · exact hne s h
      · intro s0 hs0
        simp at hs0
        subst hs0
        exact List.prefix_rfl
      · intro s0 hs0 hlen
        simp at hs0
        subst hs0
        have hb1 : 1 ≤ binp.length := by
          cases binp with
          | nil => exact absurd rfl hcond.1
          | cons a l => simp
        omega
      · intro s hs
        simp only [List.tail_cons] at hs
        cases hsegs : segs with
        | nil => simp [hsegs] at hs
        | cons s0 srest =>
          rcases List.mem_cons.mp (hsegs ▸ hs) with h | h
          · subst h
            intro hlen
            have := hhead s (by simp [hsegs])
            simp at this
            exact this (by omega)
          · exact htail s (by simp [hsegs, h]) 
      · intro i hi
        cases i with
        | zero =>
          simp only [List.getD_cons_zero, List.getD_cons_succ]
          cases hsegs : segs with
          | nil => simp [hsegs] at hi
          | cons s0 srest =>
            have hp := hpre s0 (by simp [hsegs])
            have hn := hne s0 (by simp [hsegs])
            have : segHeadWeight s0 = c := by
              cases s0 with
              | nil => exact absurd rfl hn
              | cons q qs =>
                have hq : (k, c) = q := by
                  rcases hp with ⟨t, ht⟩
                  simp only [List.singleton_append, List.cons.injEq] at ht
                  exact ht.1
                simp [segHeadWeight, ← hq]
            simp [hsegs, List.getD_cons_zero, this]
            exact hcond.2
        | succ i' =>
          simp only [List.getD_cons_succ]
          exact hbd i' (by simpa using hi)
    · obtain ⟨segs, hflat, heq, hne, hpre, hhead, htail, hbd⟩ := ih (binp ++ [(k, c)])
      refine ⟨segs, ?_, ?_, hne, ?_, ?_, htail, hbd⟩
      · simp [hflat]
      · have hc : chunkAux m ((k, c) :: rest) (binp.map Prod.fst) (segWeight binp) =
            chunkAux m rest (binp.map Prod.fst ++ [k]) (segWeight binp + c) := by
          rw [chunkAux]
          by_cases h1 : binp.map Prod.fst = []
          · simp [h1]
          · have h2 : ¬ m < segWeight binp + c := fun h => hcond ⟨h1, h⟩
            simp [h1, h2, List.isEmpty_iff]
        rw [hc]
        have : chunkAux m rest (binp.map Prod.fst ++ [k]) (segWeight binp + c) =
            chunkAux m rest ((binp ++ [(k, c)]).map Prod.fst) (segWeight (binp ++ [(k, c)])) := by
          simp [segWeight_append, segWeight]
        rw [this, heq]
      · intro s0 hs0
        exact (List.prefix_append binp [(k, c)]).trans (hpre s0 hs0)
      · intro s0 hs0 hlen
        have hp := hpre s0 hs0
        have hlb : binp.length + 1 ≤ s0.length := by
          have := hp.length_le
          simpa using this
        by_cases hexact : s0.length = binp.length + 1
        · have hs0eq : s0 = binp ++ [(k, c)] := by
            refine (hp.eq_of_length ?_).symm
            simp [hexact]
          have hb1 : 1 ≤ binp.length := by omega
          have h1 : binp.map Prod.fst ≠ [] := by
            cases binp with
            | nil => simp at hb1
            | cons a l => simp
          have h2 : ¬ m < segWeight binp + c := fun h => hcond ⟨h1, h⟩
          rw [hs0eq, segWeight_append]
          have hw : segWeight [(k, c)] = c := by simp [segWeight]
          omega
        · have hlen2 : (binp ++ [(k, c)]).length = binp.length + 1 := by simp
          exact hhead s0 hs0 (by omega)

/-- Claim C5: `chunk_items` partitions the counter into consecutive
segments: every group id appears in exactly one chunk (concatenation of
chunks in order equals the key sequence), chunks are nonempty, a chunk of
two or more groups never exceeds `max_chunk_size`, and at every chunk
boundary the closed chunk's total plus the next group's count exceeds
`max_chunk_size` (so a chunk is closed only when adding the next group
would overflow; an oversized single group still occupies one chunk). -/
theorem chunk_items_partition {α : Type} (counter : List (α × Nat)) (m : Nat) :
    ∃ segs : List (List (α × Nat)),
      segs.flatten = counter ∧
      chunk_items counter m = segs.map (fun s => s.map Prod.fst) ∧
      (∀ s ∈ segs, s ≠ []) ∧
      (∀ s ∈ segs, 2 ≤ s.length → segWeight s ≤ m) ∧
      (∀ i, i + 1 < segs.length →
        m < segWeight (segs.getD i []) + segHeadWeight (segs.getD (i + 1) [])) := by
  obtain ⟨segs, hflat, heq, hne, hpre, hhead, htail, hbd⟩ := chunkAux_spec m counter []
  refine ⟨segs, by simpa using hflat, ?_, hne, ?_, hbd⟩
  · have : chunk_items counter m = chunkAux m counter (([] : List (α × Nat)).map Prod.fst)
        (segWeight ([] : List (α × Nat))) := by
      simp [chunk_items, segWeight]
    rw [this, heq]
  · intro s hs
    cases hsegs : segs with
    | nil => simp [hsegs] at hs
    | cons s0 srest =>
      rcases List.mem_cons.mp (hsegs ▸ hs) with h | h
      · subst h
        intro hlen
        have := hhead s (by simp [hsegs])
        simp at this
        exact this (by omega)
      · exact htail s (by simp [hsegs, h])

theorem chunkAux_flatten {α : Type} (m : Nat) :
    ∀ (l : List (α × Nat)) (bin : List α) (sz : Nat),
      (chunkAux m l bin sz).flatten = bin ++ l.map Prod.fst := by
  intro l
  induction l with
  | nil =>
    intro bin sz
    cases bin <;> simp [chunkAux]
  | cons kc rest ih =>
    intro bin sz
    obtain ⟨k, c⟩ := kc
    rw [chunkAux]
    by_cases h : (!bin.isEmpty && decide (m < sz + c)) = true
    · rw [if_pos h]
      simp [ih]
    · rw [if_neg h]
      simp [ih]

theorem chunk_items_flatten {α : Type} (counter : List (α × Nat)) (m : Nat) :
    (chunk_items counter m).flatten = counter.map Prod.fst := by
  simpa using chunkAux_flatten m counter [] 0

theorem mapM_flatten_parts {α γ : Type} (f : α → Option (List γ)) :
    ∀ l : List (List α),
      ((List.mapM (fun ch => (List.mapM f ch).map List.flatten) l).map List.flatten)
        = ((List.mapM f l.flatten).map List.flatten) := by
  intro l
  induction l with
  | nil => simp only [List.flatten_nil, List.mapM_nil]
  | cons ch rest ih =>
    rw [List.flatten_cons, List.mapM_cons, List.mapM_append]
    cases hch : List.mapM f ch with
    | none =>
      cases hg : List.mapM (fun ch => (List.mapM f ch).map List.flatten) rest <;> rfl
    | some xs =>
      cases hrest : List.mapM f rest.flatten with
      | none =>
        have hnone : (List.mapM (fun ch => (List.mapM f ch).map List.flatten) rest) = none := by
          rw [hrest] at ih
          cases hg : List.mapM (fun ch => (List.mapM f ch).map List.flatten) rest
          · rfl
          · rw [hg] at ih
            exact absurd ih (by simp)
        rw [hnone]
        rfl
      | some ys =>
        cases hg : List.mapM (fun ch => (List.mapM f ch).map List.flatten) rest with
        | none =>
          rw [hrest, hg] at ih
          exact absurd ih (by simp)
        | some zs =>
          rw [hrest, hg] at ih
          have h : zs.flatten = ys.flatten := by simpa using ih
          show some ((xs.flatten :: zs).flatten) = some ((xs ++ ys).flatten)
          simp [h]

theorem bucketStrikesCore_eq_nochunk (P : ClusterParams) (evs : List Event) (m : Nat) :
    bucketStrikesCore P evs m =
      ((List.mapM
          (clusterGroupGlobal P evs (timeGroups P.maxTimeThreshold (evs.map (fun e => e.t))))
          ((counterOf (timeGroups P.maxTimeThreshold (evs.map (fun e => e.t)))).map
            Prod.fst)).map List.flatten) := by
  have h0 : bucketStrikesCore P evs m =
      (List.mapM (groupProcess P evs (timeGroups P.maxTimeThreshold (evs.map (fun e => e.t))))
        (chunk_items (counterOf (timeGroups P.maxTimeThreshold (evs.map (fun e => e.t)))) m)).map
        List.flatten := rfl
  have hg : groupProcess P evs (timeGroups P.maxTimeThreshold (evs.map (fun e => e.t))) =
      fun ch =>
        (List.mapM
          (clusterGroupGlobal P evs (timeGroups P.maxTimeThreshold (evs.map (fun e => e.t)))) ch).map
          List.flatten := rfl
  rw [h0, hg, mapM_flatten_parts, chunk_items_flatten]

/-- Claim C6: the chunking granularity `MAX_CHUNK_SIZE` affects only the
packing of coarse groups into work units, not the pipeline output: for
every event table and parameter set, running the full pipeline with any
two chunk sizes produces the same clusters-and-chains result. -/
theorem bucket_chunk_invariance (events : List Event) (p : RawParams) (m₁ m₂ : Nat) :
    bucket_dataframe_lightnings events p m₁ = bucket_dataframe_lightnings events p m₂ := by
  have h : bucketStrikesCore (resolveCluster p) (sortEventsByTime events) m₁ =
      bucketStrikesCore (resolveCluster p) (sortEventsByTime events) m₂ := by
    rw [bucketStrikesCore_eq_nochunk, bucketStrikesCore_eq_nochunk]
  simp only [bucket_dataframe_lightnings]
  rw [h]

theorem maskedCandidatesAux_mem (S : StitchParams) (e : Event) :
    ∀ (pre : List Event) (n k : Nat) (v : ℚ),
      (k, v) ∈ maskedCandidatesAux S e n pre ↔
        ∃ j, j < pre.length ∧ k = n + j ∧ maskOk S (pre.getD j defaultEvent) e = true ∧
          v = d2 (pre.getD j defaultEvent) e := by
  intro pre
  induction pre with
  | nil => intro n k v; simp [maskedCandidatesAux]
  | cons p rest ih =>
    intro n k v
    rw [maskedCandidatesAux]
    constructor
    · intro h
      rcases List.mem_append.mp h with h1 | h2
      · by_cases hm : maskOk S p e = true
        · rw [if_pos hm] at h1
          simp at h1
          exact ⟨0, by simp, by omega, by simpa [List.getD_cons_zero] using hm, by
            simp [List.getD_cons_zero, h1.2]⟩
        · rw [if_neg hm] at h1
          simp at h1
      · obtain ⟨j, hj, hk, hmask, hv⟩ := (ih (n + 1) k v).mp h2
        exact ⟨j + 1, by simpa using hj, by omega, by simpa [List.getD_cons_succ] using hmask, by
          simpa [List.getD_cons_succ] using hv⟩
    · rintro ⟨j, hj, hk, hmask, hv⟩
      cases j with
      | zero =>
        have hm : maskOk S p e = true := by simpa [List.getD_cons_zero] using hmask
        apply List.mem_append.mpr
        left
        rw [if_pos hm]
        simp [List.getD_cons_zero] at hv
        simp [hk, hv]
      | succ j' =>
        apply List.mem_append.mpr
        right
        refine (ih (n + 1) k v).mpr ⟨j', by simpa using hj, by omega, ?_, ?_⟩
        · simpa [List.getD_cons_succ] using hmask
        · simpa [List.getD_cons_succ] using hv

theorem maskedCandidates_mem (S : StitchParams) (e : Event) (pre : List Event) (k : Nat) (v : ℚ) :
    (k, v) ∈ maskedCandidates S e pre ↔
      k < pre.length ∧ maskOk S (pre.getD k defaultEvent) e = true ∧
        v = d2 (pre.getD k defaultEvent) e := by
  rw [maskedCandidates, maskedCandidatesAux_mem]
  constructor
  · rintro ⟨j, hj, hk, hmask, hv⟩
    have : k = j := by omega
    subst this
    exact ⟨hj, hmask, hv⟩
  · rintro ⟨hk, hmask, hv⟩
    exact ⟨k, hk, by omega, hmask, hv⟩

theorem maskedCandidatesAux_fst_ge (S : StitchParams) (e : Event) :
    ∀ (pre : List Event) (n : Nat) (q : Nat × ℚ),
      q ∈ maskedCandidatesAux S e n pre → n ≤ q.1 := by
  intro pre n q h
  obtain ⟨k, v⟩ := q
  obtain ⟨j, _, hk, _, _⟩ := (maskedCandidatesAux_mem S e pre n k v).mp h
  omega

theorem maskedCandidatesAux_fst_lt (S : StitchParams) (e : Event) :
    ∀ (pre : List Event) (n : Nat),
      (maskedCandidatesAux S e n pre).Pairwise (fun q r => q.1 < r.1) := by
  intro pre
  induction pre with
  | nil => intro n; simp [maskedCandidatesAux]
  | cons p rest ih =>
    intro n
    rw [maskedCandidatesAux]
    by_cases hm : maskOk S p e = true
    · rw [if_pos hm, List.singleton_append, List.pairwise_cons]
      refine ⟨?_, ih (n + 1)⟩
      intro r hr
      have := maskedCandidatesAux_fst_ge S e rest (n + 1) r hr
      omega
    · rw [if_neg hm, List.nil_append]
      exact ih (n + 1)

theorem argminAux_eq_none (l : List (Nat × ℚ)) : argminAux l = none ↔ l = [] := by
  cases l with
  | nil => simp [argminAux]
  | cons a r =>
    obtain ⟨i, x⟩ := a
    rw [argminAux]
    cases argminAux r with
    | none => simp
    | some jw =>
      obtain ⟨j, w⟩ := jw
      by_cases h : x ≤ w <;> simp [h]

theorem argminAux_split :
    ∀ (l : List (Nat × ℚ)) (k : Nat) (v : ℚ), argminAux l = some (k, v) →
      ∃ l₁ l₂, l = l₁ ++ (k, v) :: l₂ ∧ (∀ q ∈ l₁, v < q.2) ∧ (∀ q ∈ l₂, v ≤ q.2) := by
  intro l
  induction l with
  | nil => intro k v h; simp [argminAux] at h
  | cons a r ih =>
    intro k v h
    obtain ⟨i, x⟩ := a
    rw [argminAux] at h
    cases hr : argminAux r with
    | none =>
      rw [hr] at h
      simp at h
      obtain ⟨rfl, rfl⟩ := h
      have hrnil : r = [] := (argminAux_eq_none r).mp hr
      subst hrnil
      exact ⟨[], [], rfl, by simp, by simp⟩
    | some jw =>
      obtain ⟨j, w⟩ := jw
      rw [hr] at h
      obtain ⟨r₁, r₂, hsplit, h1, h2⟩ := ih j w hr
      have h' : (if x ≤ w then some (i, x) else some (j, w)) = some (k, v) := h
      clear h
      by_cases hle : x ≤ w
      · rw [if_pos hle] at h'
        simp at h'
        obtain ⟨rfl, rfl⟩ := h'
        refine ⟨[], r, rfl, by simp, ?_⟩
        intro q hq
        rw [hsplit] at hq
        rcases List.mem_append.mp hq with hq | hq
        · exact le_trans hle (le_of_lt (h1 q hq))
        · rcases List.mem_cons.mp hq with hq | hq
          · rw [hq]
            exact hle
          · exact le_trans hle (h2 q hq)
      · rw [if_neg hle] at h'
        simp at h'
        obtain ⟨rfl, rfl⟩ := h'
        refine ⟨(i, x) :: r₁, r₂, by simp [hsplit], ?_, h2⟩
        intro q hq
        rcases List.mem_cons.mp hq with hq | hq
        · rw [hq]
          exact lt_of_not_le hle
        · exact h1 q hq

theorem argmin_masked_none_iff (S : StitchParams) (e : Event) (pre : List Event) :
    argminAux (maskedCandidates S e pre) = none ↔
      ∀ j, j < pre.length → maskOk S (pre.getD j defaultEvent) e = false := by
  rw [argminAux_eq_none]
  constructor
  · intro h j hj
    by_contra hmask
    have hmem : (j, d2 (pre.getD j defaultEvent) e) ∈ maskedCandidates S e pre :=
      (maskedCandidates_mem S e pre j _).mpr ⟨hj, by simpa using hmask, rfl⟩
    rw [h] at hmem
    simp at hmem
  · intro h
    by_contra hne
    cases hl : maskedCandidates S e pre with
    | nil => exact hne hl
    | cons q qs =>
      have hq : q ∈ maskedCandidates S e pre := by
        rw [hl]
        exact List.mem_cons_self q qs
      have hq2 : (q.1, q.2) ∈ maskedCandidates S e pre := by simpa using hq
      obtain ⟨hj, hmask, _⟩ := (maskedCandidates_mem S e pre q.1 q.2).mp hq2
      rw [h q.1 hj] at hmask
      exact Bool.false_ne_true hmask

theorem argmin_masked_some (S : StitchParams) (e : Event) (pre : List Event) (k : Nat) (v : ℚ)
    (h : argminAux (maskedCandidates S e pre) = some (k, v)) :
    k < pre.length ∧ maskOk S (pre.getD k defaultEvent) e = true ∧
      v = d2 (pre.getD k defaultEvent) e ∧
      ∀ j, j < pre.length → maskOk S (pre.getD j defaultEvent) e = true →
        v ≤ d2 (pre.getD j defaultEvent) e ∧ (d2 (pre.getD j defaultEvent) e = v → k ≤ j) := by
  obtain ⟨l₁, l₂, hsplit, h1, h2⟩ := argminAux_split _ k v h
  have hkmem : (k, v) ∈ maskedCandidates S e pre := by
    rw [hsplit]
    exact List.mem_append.mpr (Or.inr (List.mem_cons_self _ _))
  obtain ⟨hk, hmask, hv⟩ := (maskedCandidates_mem S e pre k v).mp hkmem
  refine ⟨hk, hmask, hv, ?_⟩
  intro j hj hjmask
  have hjmem : (j, d2 (pre.getD j defaultEvent) e) ∈ maskedCandidates S e pre :=
    (maskedCandidates_mem S e pre j _).mpr ⟨hj, hjmask, rfl⟩
  have hpw : (maskedCandidates S e pre).Pairwise (fun q r => q.1 < r.1) :=
    maskedCandidatesAux_fst_lt S e pre 0
  rw [hsplit] at hjmem hpw
  rcases List.mem_append.mp hjmem with hin | hin
  · refine ⟨le_of_lt (h1 _ hin), ?_⟩
    intro heq
    have := h1 _ hin
    rw [heq] at this
    exact absurd this (lt_irrefl v)
  · rcases List.mem_cons.mp hin with hin | hin
    · have hjk : j = k := congrArg Prod.fst hin
      have hdv : d2 (pre.getD j defaultEvent) e = v := congrArg Prod.snd hin
      exact ⟨le_of_eq hdv.symm, fun _ => le_of_eq hjk.symm⟩
    · refine ⟨h2 _ hin, ?_⟩
      intro _
      have hcross := (List.pairwise_append.mp hpw).2.1
      rw [List.pairwise_cons] at hcross
      exact le_of_lt (hcross.1 _ hin)

theorem stitchPick_eq_some (S : StitchParams) (tbl : List Event) (parsed : List Nat) (idx : Nat)
    (pc : Nat × Nat) (h : stitchPick S tbl parsed idx = some pc) :
    ∃ k v, argminAux (maskedCandidates S (evAt tbl idx) (parsed.map (evAt tbl))) = some (k, v) ∧
      pc = (parsed.getD k 0, idx) := by
  cases harg : argminAux (maskedCandidates S (evAt tbl idx) (parsed.map (evAt tbl))) with
  | none =>
    have hs : stitchPick S tbl parsed idx = none := by
      unfold stitchPick
      rw [harg]
    rw [hs] at h
    exact absurd h (by simp)
  | some kv =>
    obtain ⟨k, v⟩ := kv
    have hs : stitchPick S tbl parsed idx = some (parsed.getD k 0, idx) := by
      unfold stitchPick
      rw [harg]
    rw [hs] at h
    exact ⟨k, v, rfl, (Option.some.inj h).symm⟩

theorem stitchCorrAux_eq_filterMap (S : StitchParams) (tbl : List Event) :
    ∀ (l parsed : List Nat),
      stitchCorrAux S tbl parsed l =
        (List.range l.length).filterMap
          (fun i => stitchPick S tbl (parsed ++ l.take i) (l.getD i 0)) := by
  intro l
  induction l with
  | nil => intro parsed; simp [stitchCorrAux]
  | cons a rest ih =>
    intro parsed
    rw [stitchCorrAux, List.length_cons, List.range_succ_eq_map, List.filterMap_cons,
      List.filterMap_map]
    have hfs : ((fun i => stitchPick S tbl (parsed ++ (a :: rest).take i) ((a :: rest).getD i 0)) ∘
          Nat.succ) =
        fun i => stitchPick S tbl ((parsed ++ [a]) ++ rest.take i) (rest.getD i 0) := by
      funext i
      simp only [Function.comp_apply, List.take_succ_cons, List.getD_cons_succ]
      rw [List.append_cons]
    rw [hfs, ← ih (parsed ++ [a])]
    simp only [List.take_zero, List.append_nil, List.getD_cons_zero]
    cases stitchPick S tbl parsed a <;> simp

theorem stitchCorrAux_children_sublist (S : StitchParams) (tbl : List Event) :
    ∀ (l parsed : List Nat), ((stitchCorrAux S tbl parsed l).map Prod.snd).Sublist l := by
  intro l
  induction l with
  | nil => intro parsed; simp [stitchCorrAux]
  | cons a rest ih =>
    intro parsed
    rw [stitchCorrAux, List.map_append]
    cases hp : stitchPick S tbl parsed a with
    | none =>
      simp only [List.map_nil, List.nil_append]
      exact (ih (parsed ++ [a])).cons a
    | some pc =>
      obtain ⟨k, v, _, hpc⟩ := stitchPick_eq_some S tbl parsed a pc hp
      have hsnd : pc.2 = a := by rw [hpc]
      simp only [List.map_cons, List.map_nil, List.singleton_append, hsnd]
      exact (ih (parsed ++ [a])).cons₂ a

theorem getD_map_evAt (tbl : List Event) (l : List Nat) (k : Nat) (hk : k < l.length) :
    (l.map (evAt tbl)).getD k defaultEvent = evAt tbl (l.getD k 0) := by
  rw [List.getD_eq_getElem _ _ (by simpa using hk), List.getD_eq_getElem _ _ hk, List.getElem_map]

theorem getD_take_eq (l : List Nat) (i j : Nat) (h : j < i) :
    (l.take i).getD j 0 = l.getD j 0 := by
  rw [List.getD_eq_getElem?_getD, List.getD_eq_getElem?_getD, List.getElem?_take]
  simp [h]

/-- Claim C3: parent selection of the Chain Builder.  The stitching loop
is exactly: for each position `i` of the time-sorted strike, attempt a
pick against all `i` earlier events (which all stay available as possible
parents, whether or not they received an edge), emitting at most one
correlation per event.  A pick returns `none` exactly when no predecessor
passes the mask; otherwise it returns the masked predecessor of minimum
squared distance, ties resolved to the first occurrence (lowest position)
in masked order. -/
theorem stitch_parent_selection (S : StitchParams) (tbl : List Event) :
    (∀ l : List Nat,
      stitchCorrAux S tbl [] l =
        (List.range l.length).filterMap (fun i => stitchPick S tbl (l.take i) (l.getD i 0))) ∧
    (∀ (e : Event) (pre : List Event),
      argminAux (maskedCandidates S e pre) = none ↔
        ∀ j, j < pre.length → maskOk S (pre.getD j defaultEvent) e = false) ∧
    (∀ (e : Event) (pre : List Event) (k : Nat) (v : ℚ),
      argminAux (maskedCandidates S e pre) = some (k, v) →
        k < pre.length ∧ maskOk S (pre.getD k defaultEvent) e = true ∧
          v = d2 (pre.getD k defaultEvent) e ∧
          ∀ j, j < pre.length → maskOk S (pre.getD j defaultEvent) e = true →
            v ≤ d2 (pre.getD j defaultEvent) e ∧
              (d2 (pre.getD j defaultEvent) e = v → k ≤ j)) := by
  refine ⟨?_, fun e pre => argmin_masked_none_iff S e pre,
    fun e pre k v h => argmin_masked_some S e pre k v h⟩
  intro l
  have h := stitchCorrAux_eq_filterMap S tbl l []
  simpa using h

theorem stitch_parent_selection_witness :
    stitchCorrAux (resolveStitch exParamsSpeedCap) exTableSpeed [] [0, 1] =
      (List.range ([0, 1] : List Nat).length).filterMap
        (fun i => stitchPick (resolveStitch exParamsSpeedCap) exTableSpeed
          (([0, 1] : List Nat).take i) (([0, 1] : List Nat).getD i 0)) :=
  (stitch_parent_selection (resolveStitch exParamsSpeedCap) exTableSpeed).1 [0, 1]

/-- Claim C2 (counterexample): the mask of `stitch_lightning_strike` gates
the FLOORED squared speed `dist²/max(dt², 1e-5)`, not the true pairwise
speed `dist/dt`.  With two events 1 m apart and dt = 1 ms (dt² = 1e-6,
floored to 1e-5) and `max_lightning_speed = 400`, the correlation (0, 1)
is emitted although the true pairwise speed is 1000 m/s, whose square
1000000 exceeds `max_lightning_speed² = 160000`; so the claimed bound
`distance/dt ≤ max_lightning_speed` fails on the output. -/
theorem stitch_true_speed_counterexample :
    stitch_lightning_strike [0, 1] exTableSpeed exParamsSpeedCap = [(0, 1)] ∧
    (resolveStitch exParamsSpeedCap).maxSpeed = 400 ∧
    0 ≤ (resolveStitch exParamsSpeedCap).maxSpeed ∧
    trueSpeedSq (evAt exTableSpeed 0) (evAt exTableSpeed 1) = 1000000 ∧
    ¬ (trueSpeedSq (evAt exTableSpeed 0) (evAt exTableSpeed 1) ≤
        (resolveStitch exParamsSpeedCap).maxSpeed ^ 2) := by
  refine ⟨by with_unfolding_all decide, by norm_num [resolveStitch, exParamsSpeedCap],
    by norm_num [resolveStitch, exParamsSpeedCap],
    by norm_num [trueSpeedSq, d2, evAt, exTableSpeed, defaultEvent, List.getD],
    by norm_num [trueSpeedSq, d2, evAt, exTableSpeed, exParamsSpeedCap, resolveStitch,
      defaultEvent, List.getD]⟩

/-- Claim C2 (amended): every correlation `(p, c)` returned by
`stitch_lightning_strike` joins two positions `k < j` of the time-sorted
strike and passed the squared-threshold mask: squared distance at most
`max_lightning_dist²`, floored squared time difference at most
`max_lightning_time_threshold²`, and the floored squared speed
`dist²/max(dt², 1e-5)` within `[min_lightning_speed², max_lightning_speed²]`.
The true speed `dist/dt` may exceed `max_lightning_speed` when
`dt² < 1e-5`. -/
theorem stitch_mask_gating (p : RawParams) (tbl : List Event) (ix : List Nat) (pc : Nat × Nat)
    (hmem : pc ∈ stitch_lightning_strike ix tbl p) :
    ∃ k j : Nat, k < j ∧ j < (sortStrike tbl ix).length ∧
      pc = ((sortStrike tbl ix).getD k 0, (sortStrike tbl ix).getD j 0) ∧
      d2 (evAt tbl pc.1) (evAt tbl pc.2) ≤ (resolveStitch p).maxDist ^ 2 ∧
      flooredSq (((evAt tbl pc.2).t - (evAt tbl pc.1).t) * ((evAt tbl pc.2).t - (evAt tbl pc.1).t))
        ≤ (resolveStitch p).maxTimeThreshold ^ 2 ∧
      (resolveStitch p).minSpeed ^ 2 ≤
        d2 (evAt tbl pc.1) (evAt tbl pc.2) /
          flooredSq (((evAt tbl pc.2).t - (evAt tbl pc.1).t) *
            ((evAt tbl pc.2).t - (evAt tbl pc.1).t)) ∧
      d2 (evAt tbl pc.1) (evAt tbl pc.2) /
          flooredSq (((evAt tbl pc.2).t - (evAt tbl pc.1).t) *
            ((evAt tbl pc.2).t - (evAt tbl pc.1).t)) ≤ (resolveStitch p).maxSpeed ^ 2 := by
  have h0 : pc ∈ (stitchCorrAux (resolveStitch p) tbl [] (sortStrike tbl ix)).filter
      (fun q => validNode (stitchCorrAux (resolveStitch p) tbl [] (sortStrike tbl ix))
          (resolveStitch p).minPts q.1 &&
        validNode (stitchCorrAux (resolveStitch p) tbl [] (sortStrike tbl ix))
          (resolveStitch p).minPts q.2) := hmem
  have hcorr : pc ∈ stitchCorrAux (resolveStitch p) tbl [] (sortStrike tbl ix) :=
    (List.mem_filter.mp h0).1
  rw [stitchCorrAux_eq_filterMap (resolveStitch p) tbl (sortStrike tbl ix) []] at hcorr
  obtain ⟨i, hi, hpick⟩ := List.mem_filterMap.mp hcorr
  rw [List.mem_range] at hi
  simp only [List.nil_append] at hpick
  obtain ⟨k, v, harg, hpc⟩ := stitchPick_eq_some (resolveStitch p) tbl
    ((sortStrike tbl ix).take i) ((sortStrike tbl ix).getD i 0) pc hpick
  obtain ⟨hk, hmask, hv, _⟩ := argmin_masked_some (resolveStitch p)
    (evAt tbl ((sortStrike tbl ix).getD i 0)) (((sortStrike tbl ix).take i).map (evAt tbl)) k v harg
  have hklen : k < ((sortStrike tbl ix).take i).length := by simpa using hk
  have hki : k < i := by
    rw [List.length_take] at hklen
    omega
  have hpre : (((sortStrike tbl ix).take i).map (evAt tbl)).getD k defaultEvent =
      evAt tbl ((sortStrike tbl ix).getD k 0) := by
    rw [getD_map_evAt tbl ((sortStrike tbl ix).take i) k hklen, getD_take_eq _ i k hki]
  have hpc2 : pc = ((sortStrike tbl ix).getD k 0, (sortStrike tbl ix).getD i 0) := by
    rw [hpc, getD_take_eq _ i k hki]
  subst hpc2
  rw [hpre] at hmask
  simp only [maskOk, Bool.and_eq_true, decide_eq_true_eq] at hmask
  obtain ⟨⟨⟨hm1, hm2⟩, hm3⟩, hm4⟩ := hmask
  exact ⟨k, i, hki, hi, rfl, hm1, hm4, hm3, hm2⟩

theorem stitch_mask_gating_witness :
    ∃ k j : Nat, k < j ∧ j < (sortStrike exTableSpeed [0, 1]).length ∧
      ((0 : Nat), (1 : Nat)) =
        ((sortStrike exTableSpeed [0, 1]).getD k 0, (sortStrike exTableSpeed [0, 1]).getD j 0) ∧
      d2 (evAt exTableSpeed 0) (evAt exTableSpeed 1) ≤
        (resolveStitch exParamsSpeedCap).maxDist ^ 2 ∧
      flooredSq (((evAt exTableSpeed 1).t - (evAt exTableSpeed 0).t) *
          ((evAt exTableSpeed 1).t - (evAt exTableSpeed 0).t))
        ≤ (resolveStitch exParamsSpeedCap).maxTimeThreshold ^ 2 ∧
      (resolveStitch exParamsSpeedCap).minSpeed ^ 2 ≤
        d2 (evAt exTableSpeed 0) (evAt exTableSpeed 1) /
          flooredSq (((evAt exTableSpeed 1).t - (evAt exTableSpeed 0).t) *
            ((evAt exTableSpeed 1).t - (evAt exTableSpeed 0).t)) ∧
      d2 (evAt exTableSpeed 0) (evAt exTableSpeed 1) /
          flooredSq (((evAt exTableSpeed 1).t - (evAt exTableSpeed 0).t) *
            ((evAt exTableSpeed 1).t - (evAt exTableSpeed 0).t)) ≤
        (resolveStitch exParamsSpeedCap).maxSpeed ^ 2 :=
  stitch_mask_gating exParamsSpeedCap exTableSpeed [0, 1] (0, 1) (by with_unfolding_all decide)

/-- Claim C10: in every correlation list returned by
`stitch_lightning_strike` on a duplicate-free strike, each event index is
the child of at most one correlation (the child projections are
duplicate-free), and the chain-size filter only removes edges (its output
is a sublist of its input), hence preserves this property. -/
theorem child_unique_forest (p : RawParams) (tbl : List Event) (ix : List Nat)
    (hnd : ix.Nodup) :
    ((stitch_lightning_strike ix tbl p).map Prod.snd).Nodup ∧
    ∀ (corr : List (Nat × Nat)) (m : Nat),
      (filter_correlations_by_chain_size corr m).Sublist corr := by
  constructor
  · have hperm : (sortStrike tbl ix).Perm ix := List.mergeSort_perm ix _
    have hnd2 : (sortStrike tbl ix).Nodup := hperm.symm.nodup hnd
    have hsub : ((stitchCorrAux (resolveStitch p) tbl [] (sortStrike tbl ix)).map
        Prod.snd).Sublist (sortStrike tbl ix) :=
      stitchCorrAux_children_sublist (resolveStitch p) tbl (sortStrike tbl ix) []
    have hndc := hsub.nodup hnd2
    have hfil : (stitch_lightning_strike ix tbl p).Sublist
        (stitchCorrAux (resolveStitch p) tbl [] (sortStrike tbl ix)) :=
      List.filter_sublist _
    exact (hfil.map Prod.snd).nodup hndc
  · intro corr m
    exact List.filter_sublist corr

theorem child_unique_forest_witness :
    ((stitch_lightning_strike [0, 1] exTableSpeed exParamsSpeedCap).map Prod.snd).Nodup :=
  (child_unique_forest exParamsSpeedCap exTableSpeed [0, 1] (by decide)).1

theorem adjacentB_iff (corr : List (Nat × Nat)) (a b : Nat) :
    adjacentB corr a b = true ↔ adjRel corr a b := by
  simp only [adjacentB, List.any_eq_true, Bool.or_eq_true, Bool.and_eq_true, beq_iff_eq, adjRel]
  constructor
  · rintro ⟨pc, hpc, ⟨h1, h2⟩ | ⟨h1, h2⟩⟩
    · left
      have : pc = (a, b) := Prod.ext h1 h2
      rwa [this] at hpc
    · right
      have : pc = (b, a) := Prod.ext h1 h2
      rwa [this] at hpc
  · rintro (h | h)
    · exact ⟨(a, b), h, Or.inl ⟨rfl, rfl⟩⟩
    · exact ⟨(b, a), h, Or.inr ⟨rfl, rfl⟩⟩

theorem nodesOf_cons (pc : Nat × Nat) (rest : List (Nat × Nat)) :
    nodesOf (pc :: rest) = insert pc.1 (insert pc.2 (nodesOf rest)) := rfl

theorem mem_nodesOf (corr : List (Nat × Nat)) (x : Nat) :
    x ∈ nodesOf corr ↔ ∃ pc ∈ corr, x = pc.1 ∨ x = pc.2 := by
  induction corr with
  | nil => simp [nodesOf]
  | cons pc rest ih =>
    rw [nodesOf_cons]
    simp only [Finset.mem_insert, ih, List.mem_cons]
    constructor
    · rintro (h | h | ⟨q, hq, hx⟩)
      · exact ⟨pc, Or.inl rfl, Or.inl h⟩
      · exact ⟨pc, Or.inl rfl, Or.inr h⟩
      · exact ⟨q, Or.inr hq, hx⟩
    · rintro ⟨q, hq | hq, hx⟩
      · subst hq
        rcases hx with h | h
        · exact Or.inl h
        · exact Or.inr (Or.inl h)
      · exact Or.inr (Or.inr ⟨q, hq, hx⟩)

theorem adjRel_mem_nodesOf (corr : List (Nat × Nat)) (a b : Nat) (h : adjRel corr a b) :
    b ∈ nodesOf corr := by
  rcases h with h | h
  · exact (mem_nodesOf corr b).mpr ⟨(a, b), h, Or.inr rfl⟩
  · exact (mem_nodesOf corr b).mpr ⟨(b, a), h, Or.inl rfl⟩

theorem mem_stepComp (corr : List (Nat × Nat)) (s : Finset Nat) (u : Nat) :
    u ∈ stepComp corr s ↔
      u ∈ s ∨ (u ∈ nodesOf corr ∧ ∃ a ∈ s, adjacentB corr a u = true) := by
  simp [stepComp, Finset.mem_union, Finset.mem_filter]

theorem subset_stepComp (corr : List (Nat × Nat)) (s : Finset Nat) : s ⊆ stepComp corr s :=
  Finset.subset_union_left

theorem iterate_stepComp_subset_succ (corr : List (Nat × Nat)) (s : Finset Nat) (n : Nat) :
    (stepComp corr)^[n] s ⊆ (stepComp corr)^[n + 1] s := by
  rw [Function.iterate_succ_apply']
  exact subset_stepComp corr _

theorem iterate_stepComp_le (corr : List (Nat × Nat)) (s : Finset Nat) :
    ∀ {n m : Nat}, n ≤ m → (stepComp corr)^[n] s ⊆ (stepComp corr)^[m] s := by
  intro n m h
  induction m with
  | zero =>
    have : n = 0 := Nat.le_zero.mp h
    subst this
    exact subset_rfl
  | succ m ih =>
    rcases Nat.lt_or_ge n (m + 1) with hlt | hge
    · exact (ih (by omega)).trans (iterate_stepComp_subset_succ corr s m)
    · have : n = m + 1 := by omega
      subst this
      exact subset_rfl

theorem iterate_stepComp_subset_nodes (corr : List (Nat × Nat)) (v : Nat) :
    ∀ n, (stepComp corr)^[n] {v} ⊆ insert v (nodesOf corr) := by
  intro n
  induction n with
  | zero => simp
  | succ n ih =>
    rw [Function.iterate_succ_apply']
    intro u hu
    rcases (mem_stepComp corr _ u).mp hu with h | ⟨hn, _⟩
    · exact ih h
    · exact Finset.mem_insert_of_mem hn

theorem iterate_stepComp_grow (corr : List (Nat × Nat)) (s : Finset Nat) :
    ∀ N : Nat,
      (∀ k, k < N → stepComp corr ((stepComp corr)^[k] s) ≠ (stepComp corr)^[k] s) →
      s.card + N ≤ ((stepComp corr)^[N] s).card := by
  intro N
  induction N with
  | zero => simp
  | succ N ih =>
    intro h
    have hIH := ih (fun k hk => h k (by omega))
    have hne := h N (by omega)
    have hss : (stepComp corr)^[N] s ⊂ stepComp corr ((stepComp corr)^[N] s) :=
      (subset_stepComp corr _).ssubset_of_ne (Ne.symm hne)
    have hcard := Finset.card_lt_card hss
    rw [Function.iterate_succ_apply']
    omega

theorem compOf_fixed (corr : List (Nat × Nat)) (v : Nat) :
    stepComp corr (compOf corr v) = compOf corr v := by
  by_cases hex : ∃ k, k ≤ (nodesOf corr).card + 1 ∧
      stepComp corr ((stepComp corr)^[k] {v}) = (stepComp corr)^[k] {v}
  · obtain ⟨k, hk, hfix⟩ := hex
    have hprop : ∀ m, k ≤ m → (stepComp corr)^[m] {v} = (stepComp corr)^[k] {v} := by
      intro m hm
      induction m with
      | zero =>
        have : k = 0 := Nat.le_zero.mp hm
        subst this
        rfl
      | succ m ih =>
        rcases Nat.lt_or_ge m k with hlt | hge
        · have : k = m + 1 := by omega
          subst this
          rfl
        · rw [Function.iterate_succ_apply', ih hge, hfix]
    have h1 : compOf corr v = (stepComp corr)^[k] {v} :=
      hprop ((nodesOf corr).card + 1) hk
    rw [compOf] at h1 ⊢
    rw [h1, hfix]
  · exfalso
    push_neg at hex
    have hgrow := iterate_stepComp_grow corr {v} ((nodesOf corr).card + 1)
      (fun k hk => hex k (by omega))
    have hsub := iterate_stepComp_subset_nodes corr v ((nodesOf corr).card + 1)
    have hle := Finset.card_le_card hsub
    have hins := Finset.card_insert_le v (nodesOf corr)
    have hone : ({v} : Finset Nat).card = 1 := Finset.card_singleton v
    omega

theorem compOf_sound (corr : List (Nat × Nat)) (v : Nat) :
    ∀ n u, u ∈ (stepComp corr)^[n] {v} → Relation.ReflTransGen (adjRel corr) v u := by
  intro n
  induction n with
  | zero =>
    intro u hu
    simp at hu
    subst hu
    exact Relation.ReflTransGen.refl
  | succ n ih =>
    intro u hu
    rw [Function.iterate_succ_apply'] at hu
    rcases (mem_stepComp corr _ u).mp hu with h | ⟨_, a, ha, hadj⟩
    · exact ih u h
    · exact Relation.ReflTransGen.tail (ih a ha) ((adjacentB_iff corr a u).mp hadj)

theorem compOf_complete (corr : List (Nat × Nat)) (v u : Nat)
    (h : Relation.ReflTransGen (adjRel corr) v u) : u ∈ compOf corr v := by
  induction h with
  | refl =>
    have : v ∈ ({v} : Finset Nat) := Finset.mem_singleton_self v
    exact iterate_stepComp_le corr {v} (Nat.zero_le _) this
  | tail hab hrel ih =>
    rw [← compOf_fixed corr v]
    refine (mem_stepComp corr _ _).mpr (Or.inr ⟨adjRel_mem_nodesOf corr _ _ hrel, _, ih, ?_⟩)
    exact (adjacentB_iff corr _ _).mpr hrel

theorem mem_compOf_iff (corr : List (Nat × Nat)) (v u : Nat) :
    u ∈ compOf corr v ↔ Relation.ReflTransGen (adjRel corr) v u :=
  ⟨compOf_sound corr v _ u, compOf_complete corr v u⟩

theorem compOf_card_eq_ncard (corr : List (Nat × Nat)) (v : Nat) :
    (compOf corr v).card = Set.ncard {u | Relation.ReflTransGen (adjRel corr) v u} := by
  have hset : {u | Relation.ReflTransGen (adjRel corr) v u} = ↑(compOf corr v) := by
    ext u
    simp [mem_compOf_iff]
  rw [hset, Set.ncard_coe_Finset]

/-- Claim C4: `filter_correlations_by_chain_size` returns exactly those
input correlations, in input order, both of whose endpoints lie in a
connected component of size at least `min_pts` of the undirected graph
whose edges are the input correlations: the embedded validity test agrees
with declarative reflexive-transitive connectivity. -/
theorem filter_correlations_by_chain_size_spec (corr : List (Nat × Nat)) (m : Nat) :
    filter_correlations_by_chain_size corr m =
      corr.filter (fun pc => validNode corr m pc.1 && validNode corr m pc.2) ∧
    ∀ v : Nat, validNode corr m v = true ↔
      m ≤ Set.ncard {u | Relation.ReflTransGen (adjRel corr) v u} := by
  refine ⟨rfl, ?_⟩
  intro v
  rw [validNode, decide_eq_true_eq, compOf_card_eq_ncard]

theorem headD_append_of_ne {α : Type} (l : List α) (e d : α) (h : l ≠ []) :
    (l ++ [e]).headD d = l.headD d := by
  cases l with
  | nil => exact absurd rfl h
  | cons a r => rfl

theorem headD_mem {α : Type} (l : List α) (d : α) (h : l ≠ []) : l.headD d ∈ l := by
  cases l with
  | nil => exact absurd rfl h
  | cons a r => exact List.mem_cons_self a r

theorem headD_map {α β : Type} (f : α → β) (l : List α) (d : β) (d0 : α) (h : l ≠ []) :
    (l.map f).headD d = f (l.headD d0) := by
  cases l with
  | nil => exact absurd rfl h
  | cons a r => rfl

theorem sorted_getD_le (evs : List Event) (hs : List.Pairwise (fun a b => a.t ≤ b.t) evs)
    (i j : Nat) (hj : j < evs.length) (hij : i ≤ j) :
    (evs.getD i defaultEvent).t ≤ (evs.getD j defaultEvent).t := by
  rcases Nat.lt_or_ge i j with hlt | hge
  · have hi : i < evs.length := by omega
    rw [List.getD_eq_getElem _ _ hi, List.getD_eq_getElem _ _ hj]
    have h := List.pairwise_iff_get.mp hs ⟨i, hi⟩ ⟨j, hj⟩ (Fin.mk_lt_mk.mpr hlt)
    simpa using h
  · have : i = j := by omega
    subst this
    exact le_refl _

theorem accepts_duration (P : ClusterParams) (e : Event) (sg : CandidateSubgroup)
    (h : accepts P e sg = true) : e.t - firstT sg ≤ P.maxDuration := by
  simp only [accepts] at h
  split at h
  · exact absurd h (by simp)
  · split at h
    · split at h
      · exact of_decide_eq_true h
      · exact absurd h (by simp)
    · exact absurd h (by simp)

theorem SgInv_mono (D : ℚ) (evs : List Event) (p q : Nat) (hpq : p ≤ q)
    (sg : CandidateSubgroup) (h : SgInv D evs p sg) : SgInv D evs q sg := by
  obtain ⟨h1, h2, h3, h4⟩ := h
  exact ⟨h1, h2, fun j hj => ⟨(h3 j hj).1, by have := (h3 j hj).2; omega⟩, h4⟩

theorem SgInv_clusterOk (D : ℚ) (evs : List Event) (p : Nat) (sg : CandidateSubgroup)
    (h : SgInv D evs p sg) (hD : 0 ≤ D) : ClusterOk D evs sg.indices := by
  obtain ⟨hmap, hne, hrange, hbound⟩ := h
  intro i hi
  refine ⟨(hrange i hi).1, ?_⟩
  intro j hj
  have hmi : evs.getD i defaultEvent ∈ sg.evs := by
    rw [hmap]
    exact List.mem_map_of_mem _ hi
  have hmj : evs.getD j defaultEvent ∈ sg.evs := by
    rw [hmap]
    exact List.mem_map_of_mem _ hj
  have hbi := hbound _ hmi
  have hbj := hbound _ hmj
  linarith [hbi.2, hbj.1]

theorem attachTo_inv (P : ClusterParams) (evs : List Event)
    (hs : List.Pairwise (fun a b => a.t ≤ b.t) evs) (p : Nat) (hp : p < evs.length)
    (sg : CandidateSubgroup) (hinv : SgInv P.maxDuration evs p sg)
    (hacc : accepts P (evs.getD p defaultEvent) sg = true) :
    SgInv P.maxDuration evs (p + 1) (attachTo sg p (evs.getD p defaultEvent)) := by
  obtain ⟨hmap, hne, hrange, hbound⟩ := hinv
  have hevne : sg.evs ≠ [] := by
    rw [hmap]
    simpa using hne
  have hhead : (sg.evs ++ [evs.getD p defaultEvent]).headD defaultEvent =
      sg.evs.headD defaultEvent := headD_append_of_ne _ _ _ hevne
  have hheadidx : sg.evs.headD defaultEvent =
      evs.getD (sg.indices.headD 0) defaultEvent := by
    rw [hmap]
    exact headD_map _ _ _ 0 hne
  have hj0 := hrange (sg.indices.headD 0) (headD_mem _ 0 hne)
  have hheadle : (sg.evs.headD defaultEvent).t ≤ (evs.getD p defaultEvent).t := by
    rw [hheadidx]
    exact sorted_getD_le evs hs _ p hp (by omega)
  have hdur : (evs.getD p defaultEvent).t - (sg.evs.headD defaultEvent).t ≤ P.maxDuration :=
    accepts_duration P _ sg hacc
  refine ⟨?_, ?_, ?_, ?_⟩
  · show sg.evs ++ [evs.getD p defaultEvent] =
      (sg.indices ++ [p]).map (fun j => evs.getD j defaultEvent)
    rw [List.map_append, hmap]
    rfl
  · show sg.indices ++ [p] ≠ []
    simp
  · intro j hj
    rcases List.mem_append.mp hj with h | h
    · exact ⟨(hrange j h).1, by have := (hrange j h).2; omega⟩
    · simp at h
      subst h
      exact ⟨hp, by omega⟩
  · intro m hm
    rw [show (attachTo sg p (evs.getD p defaultEvent)).evs =
      sg.evs ++ [evs.getD p defaultEvent] from rfl] at hm
    rw [show (attachTo sg p (evs.getD p defaultEvent)).evs =
      sg.evs ++ [evs.getD p defaultEvent] from rfl, hhead]
    rcases List.mem_append.mp hm with h | h
    · exact hbound m h
    · rw [List.mem_singleton] at h
      subst h
      exact ⟨hheadle, hdur⟩

theorem tryAttach_inv (P : ClusterParams) (evs : List Event)
    (hs : List.Pairwise (fun a b => a.t ≤ b.t) evs) (p : Nat) (hp : p < evs.length) :
    ∀ (l l' : List CandidateSubgroup),
      (∀ sg ∈ l, SgInv P.maxDuration evs p sg) →
      tryAttach P p (evs.getD p defaultEvent) l = some l' →
      ∀ sg ∈ l', SgInv P.maxDuration evs (p + 1) sg := by
  intro l
  induction l with
  | nil =>
    intro l' _ h
    simp [tryAttach] at h
  | cons sg0 rest ih =>
    intro l' hl h
    rw [tryAttach] at h
    by_cases hacc : accepts P (evs.getD p defaultEvent) sg0 = true
    · rw [if_pos hacc] at h
      have hl' : attachTo sg0 p (evs.getD p defaultEvent) :: rest = l' := Option.some.inj h
      subst hl'
      intro sg hsg
      rcases List.mem_cons.mp hsg with h1 | h1
      · subst h1
        exact attachTo_inv P evs hs p hp sg0 (hl sg0 (List.mem_cons_self _ _)) hacc
      · exact SgInv_mono _ evs p (p + 1) (by omega) sg (hl sg (List.mem_cons.mpr (Or.inr h1)))
    · rw [if_neg hacc] at h
      cases hrec : tryAttach P p (evs.getD p defaultEvent) rest with
      | none =>
        rw [hrec] at h
        simp at h
      | some l'' =>
        rw [hrec] at h
        simp only [Option.map_some'] at h
        have hl' : sg0 :: l'' = l' := Option.some.inj h
        subst hl'
        intro sg hsg
        rcases List.mem_cons.mp hsg with h1 | h1
        · subst h1
          exact SgInv_mono _ evs p (p + 1) (by omega) sg (hl sg (List.mem_cons_self _ _))
        · exact ih l'' (fun sg2 hsg2 => hl sg2 (List.mem_cons.mpr (Or.inr hsg2))) hrec sg h1

theorem processEvent_inv (P : ClusterParams) (evs : List Event)
    (hs : List.Pairwise (fun a b => a.t ≤ b.t) evs) (hD : 0 ≤ P.maxDuration)
    (p : Nat) (hp : p < evs.length)
    (sgs : List CandidateSubgroup) (fin : List (List Nat))
    (hsgs : ∀ sg ∈ sgs, SgInv P.maxDuration evs p sg)
    (hfin : ∀ cl ∈ fin, ClusterOk P.maxDuration evs cl) :
    (∀ sg ∈ (processEvent P (sgs, fin) (p, evs.getD p defaultEvent)).1,
        SgInv P.maxDuration evs (p + 1) sg) ∧
    (∀ cl ∈ (processEvent P (sgs, fin) (p, evs.getD p defaultEvent)).2,
        ClusterOk P.maxDuration evs cl) := by
  have hkept : ∀ sg ∈ sgs.filter (fun sg =>
      decide ((evs.getD p defaultEvent).t - firstT sg ≤ P.maxDuration)),
      SgInv P.maxDuration evs p sg :=
    fun sg hsg => hsgs sg (List.mem_filter.mp hsg).1
  have hfin2 : ∀ cl ∈ fin ++ (sgs.filter (fun sg =>
      decide (P.maxDuration < (evs.getD p defaultEvent).t - firstT sg) &&
        decide (P.minPts ≤ sg.indices.length))).map (fun sg => sg.indices),
      ClusterOk P.maxDuration evs cl := by
    intro cl hcl
    rcases List.mem_append.mp hcl with h | h
    · exact hfin cl h
    · obtain ⟨sg, hsg, rfl⟩ := List.mem_map.mp h
      exact SgInv_clusterOk _ evs p sg (hsgs sg (List.mem_filter.mp hsg).1) hD
  simp only [processEvent]
  cases htry : tryAttach P p (evs.getD p defaultEvent) (sgs.filter (fun sg =>
      decide ((evs.getD p defaultEvent).t - firstT sg ≤ P.maxDuration))) with
  | some sgs2 =>
    refine ⟨?_, hfin2⟩
    intro sg hsg
    exact tryAttach_inv P evs hs p hp _ sgs2 hkept htry sg hsg
  | none =>
    constructor
    · intro sg hsg
      rcases List.mem_append.mp hsg with h | h
      · exact SgInv_mono _ evs p (p + 1) (by omega) sg (hkept sg h)
      · rw [List.mem_singleton] at h
        subst h
        refine ⟨rfl, by simp, ?_, ?_⟩
        · intro j hj
          rw [List.mem_singleton] at hj
          subst hj
          exact ⟨hp, by omega⟩
        · intro m hm
          rw [List.mem_singleton] at hm
          subst hm
          exact ⟨le_refl _, by simpa using hD⟩
    · exact hfin2

theorem clusterLoop_inv (P : ClusterParams) (evs : List Event)
    (hs : List.Pairwise (fun a b => a.t ≤ b.t) evs) (hD : 0 ≤ P.maxDuration) :
    ∀ (n p : Nat), p + n = evs.length →
      ∀ (sgs : List CandidateSubgroup) (fin : List (List Nat)),
        (∀ sg ∈ sgs, SgInv P.maxDuration evs p sg) →
        (∀ cl ∈ fin, ClusterOk P.maxDuration evs cl) →
        (∀ sg ∈ ((enumFromL p (evs.drop p)).foldl (processEvent P) (sgs, fin)).1,
            SgInv P.maxDuration evs evs.length sg) ∧
        (∀ cl ∈ ((enumFromL p (evs.drop p)).foldl (processEvent P) (sgs, fin)).2,
            ClusterOk P.maxDuration evs cl) := by
  intro n
  induction n with
  | zero =>
    intro p hp sgs fin hsgs hfin
    have hpe : p = evs.length := by omega
    subst hpe
    have hdrop : evs.drop evs.length = [] := List.drop_eq_nil_of_le (by omega)
    rw [hdrop]
    simp only [enumFromL, List.foldl_nil]
    exact ⟨hsgs, hfin⟩
  | succ n ih =>
    intro p hp sgs fin hsgs hfin
    have hplt : p < evs.length := by omega
    rw [List.drop_eq_getElem_cons hplt,
      show evs[p] = evs.getD p defaultEvent from (List.getD_eq_getElem evs defaultEvent hplt).symm]
    rw [show enumFromL p (evs.getD p defaultEvent :: evs.drop (p + 1)) =
      (p, evs.getD p defaultEvent) :: enumFromL (p + 1) (evs.drop (p + 1)) from rfl]
    rw [List.foldl_cons]
    obtain ⟨h1, h2⟩ := processEvent_inv P evs hs hD p hplt sgs fin hsgs hfin
    have hih := ih (p + 1) (by omega)
      (processEvent P (sgs, fin) (p, evs.getD p defaultEvent)).1
      (processEvent P (sgs, fin) (p, evs.getD p defaultEvent)).2 h1 h2
    rw [Prod.mk.eta] at hih
    exact hih

/-- Claim C1: duration bound of the Cluster Engine.  For a time-sorted
group and a nonnegative `max_lightning_duration`, every cluster emitted by
the `_group_process` scan (mid-loop finalization and end-of-group
emission alike) spans at most `max_lightning_duration` between any two of
its member events: events whose attachment would break the bound are
never attached, so the bound holds for every emitted StrikeCluster. -/
theorem clusterGroup_duration_bound (P : ClusterParams) (evs : List Event)
    (hs : List.Pairwise (fun a b => a.t ≤ b.t) evs) (hD : 0 ≤ P.maxDuration) :
    ∀ cl ∈ clusterGroup P evs, ∀ i ∈ cl, ∀ j ∈ cl,
      (evs.getD i defaultEvent).t - (evs.getD j defaultEvent).t ≤ P.maxDuration := by
  intro cl hcl i hi j hj
  obtain ⟨hsg, hfin⟩ := clusterLoop_inv P evs hs hD evs.length 0 (by omega) [] []
    (by simp) (by simp)
  rw [show evs.drop 0 = evs from List.drop_zero evs] at hsg hfin
  have hcl2 : cl ∈ ((enumFromL 0 evs).foldl (processEvent P) ([], [])).2 ++
      (((enumFromL 0 evs).foldl (processEvent P) ([], [])).1.filter
        (fun sg => decide (P.minPts ≤ sg.indices.length))).map (fun sg => sg.indices) := hcl
  rcases List.mem_append.mp hcl2 with h | h
  · exact ((hfin cl h) i hi).2 j hj
  · obtain ⟨sg, hsgmem, rfl⟩ := List.mem_map.mp h
    have hinv := hsg sg (List.mem_filter.mp hsgmem).1
    exact ((SgInv_clusterOk _ evs _ sg hinv hD) i hi).2 j hj

theorem clusterGroup_duration_bound_witness :
    List.Pairwise (fun a b => a.t ≤ b.t) exTableCluster ∧
    0 ≤ exClusterParams.maxDuration ∧
    ∀ cl ∈ clusterGroup exClusterParams exTableCluster, ∀ i ∈ cl, ∀ j ∈ cl,
      (exTableCluster.getD i defaultEvent).t - (exTableCluster.getD j defaultEvent).t ≤
        exClusterParams.maxDuration :=
  ⟨by with_unfolding_all decide, by with_unfolding_all decide,
    clusterGroup_duration_bound exClusterParams exTableCluster
      (by with_unfolding_all decide) (by with_unfolding_all decide)⟩

/-- Claim C7 (code evaluated at the failing inputs): for an empty event
table the time-group computation still yields the single group id `[0]`
(`np.concatenate(([0], np.cumsum([])))` has length 1), so the group
extraction selects position 0 of the empty coordinate arrays.  With the
valid parameter `min_lightning_points = 1` that extraction is out of
range — an `IndexError` inside `_group_process` (modelled as `none`).
With the default `min_lightning_points = 300` the one-id pseudo-group is
skipped and the bucketing stage itself yields the empty cluster list,
but the run still raises at line 342 (`TypeError`, the params dict
passed positionally to a `**params` signature), so for no valid
parameter set does an empty input yield the error-free empty result the
spec promises.  The dt² floor itself is sound: it is always positive, so
the speed computation never divides by zero. -/
theorem pipeline_empty_input_behavior :
    timeGroups 1 ([] : List ℚ) = [0] ∧
    bucketStrikesCore (resolveCluster exParamsMinPts1) (sortEventsByTime []) 50000 = none ∧
    bucketStrikesCore (resolveCluster exParamsNone) (sortEventsByTime []) 50000 = some [] ∧
    bucket_dataframe_lightnings [] exParamsMinPts1 50000 = none ∧
    bucket_dataframe_lightnings [] exParamsNone 50000 = none ∧
    ∀ q : ℚ, 0 < flooredSq (q * q) := by
  refine ⟨rfl, by with_unfolding_all decide, by with_unfolding_all decide,
    by with_unfolding_all decide, by with_unfolding_all decide, ?_⟩
  intro q
  rw [flooredSq]
  split
  · norm_num
  · rename_i hq
    push_neg at hq
    calc (0 : ℚ) < 1 / 100000 := by norm_num
    _ ≤ q * q := hq

/-- Claim C8 (counterexample): `bucket_dataframe_lightnings` performs no
parameter validation and raises no `ConfigError`.  With the
out-of-domain parameters `min_lightning_speed = 10 > max_lightning_speed
= 1` on a well-formed two-event table, the clustering work runs to
completion — the bucketing stage returns the clusters `[[0], [1]]`
computed under the invalid parameters, with no failure before or during
clustering — and the run then dies with the `TypeError` of line 342
(`none`), a failure that is independent of parameter validity: the very
same error ends the run under the all-default (valid) parameters. -/
theorem no_config_error_counterexample :
    bucketStrikesCore (resolveCluster exParamsBadSpeeds) (sortEventsByTime exTableTwo) 50000 =
      some [[0], [1]] ∧
    bucket_dataframe_lightnings exTableTwo exParamsBadSpeeds 50000 = none ∧
    bucket_dataframe_lightnings exTableTwo exParamsNone 50000 = none := by
  refine ⟨by with_unfolding_all decide, by with_unfolding_all decide,
    by with_unfolding_all decide⟩

theorem maskOk_false_of_bad_speeds (p : RawParams)
    (hbad : (resolveStitch p).maxSpeed ^ 2 < (resolveStitch p).minSpeed ^ 2) :
    ∀ a b : Event, maskOk (resolveStitch p) a b = false := by
  intro a b
  cases h : maskOk (resolveStitch p) a b with
  | false => rfl
  | true =>
    exfalso
    simp only [maskOk, Bool.and_eq_true, decide_eq_true_eq] at h
    obtain ⟨⟨⟨_, h2⟩, h3⟩, _⟩ := h
    linarith

/-- Claim C8 (amended): the core performs no domain validation and never
raises a `ConfigError`: with `min_lightning_speed² > max_lightning_speed²`
no error occurs before or during clustering and the predecessor mask is
unsatisfiable, so `stitch_lightning_strike` emits no correlation for any
input; and every cache-miss run of `bucket_dataframe_lightnings` — under
these or any other parameters, valid or not — ends in the
parameter-independent `TypeError` of line 342 (modelled as `none`), never
in a `ConfigError`. -/
theorem no_parameter_validation (p : RawParams)
    (hbad : (resolveStitch p).maxSpeed ^ 2 < (resolveStitch p).minSpeed ^ 2) :
    (∀ (tbl : List Event) (ix : List Nat), stitch_lightning_strike ix tbl p = []) ∧
    ∀ (q : RawParams) (events : List Event) (m : Nat),
      bucket_dataframe_lightnings events q m = none := by
  have hstitch : ∀ (tbl : List Event) (ix : List Nat), stitch_lightning_strike ix tbl p = [] := by
    intro tbl ix
    have hcorr : stitchCorrAux (resolveStitch p) tbl [] (sortStrike tbl ix) = [] := by
      rw [stitchCorrAux_eq_filterMap (resolveStitch p) tbl (sortStrike tbl ix) []]
      apply List.filterMap_eq_nil_iff.mpr
      intro i _
      simp only [List.nil_append]
      have hnone : argminAux (maskedCandidates (resolveStitch p)
          (evAt tbl ((sortStrike tbl ix).getD i 0))
          (((sortStrike tbl ix).take i).map (evAt tbl))) = none :=
        (argmin_masked_none_iff _ _ _).mpr
          (fun j _ => maskOk_false_of_bad_speeds p hbad _ _)
      unfold stitchPick
      rw [hnone]
    show filter_correlations_by_chain_size
      (stitchCorrAux (resolveStitch p) tbl [] (sortStrike tbl ix)) (resolveStitch p).minPts = []
    rw [hcorr]
    rfl
  refine ⟨hstitch, ?_⟩
  intro q events m
  show (bucketStrikesCore (resolveCluster q) (sortEventsByTime events) m).bind
    (fun _ => (none : Option (List (List Nat) × List (List (Nat × Nat))))) = none
  cases bucketStrikesCore (resolveCluster q) (sortEventsByTime events) m <;> rfl

theorem no_parameter_validation_witness :
    stitch_lightning_strike [0, 1] exTableTwo exParamsBadSpeeds = [] ∧
    bucket_dataframe_lightnings exTableTwo exParamsBadSpeeds 50000 = none :=
  ⟨(no_parameter_validation exParamsBadSpeeds
      (by norm_num [resolveStitch, exParamsBadSpeeds])).1 exTableTwo [0, 1],
    (no_parameter_validation exParamsBadSpeeds
      (by norm_num [resolveStitch, exParamsBadSpeeds])).2 exParamsBadSpeeds exTableTwo 50000⟩

/-- Claim C9 (counterexample): with `max_lightning_duration` absent from
the parameter set, the Cluster Engine's cutoff resolves the default 20.0
(lightning_bucketer.py line 335) while the Chain Merger's window-gap test
resolves the default 10 (lightning_stitcher.py line 187) — not every
consumer uses 20.0. -/
theorem duration_default_counterexample :
    bucketerMaxDuration exParamsNone = 20 ∧ mergerMaxDuration exParamsNone = 10 ∧
    (resolveCluster exParamsNone).maxDuration = 20 ∧
    (resolveMerge exParamsNone).maxDuration = 10 ∧
    ((20 : ℚ) = 10 → False) := by
  refine ⟨rfl, rfl, rfl, rfl, by norm_num⟩

/-- Claim C9 (amended): whenever `max_lightning_duration` is absent, the
Cluster Engine (via `bucket_dataframe_lightnings`) uses the default 20.0
seconds, but the Chain Merger's window-gap test uses the default 10. -/
theorem duration_defaults (p : RawParams) (h : p.maxLightningDuration = none) :
    bucketerMaxDuration p = 20 ∧ mergerMaxDuration p = 10 ∧
    (resolveCluster p).maxDuration = bucketerMaxDuration p ∧
    (resolveMerge p).maxDuration = mergerMaxDuration p := by
  refine ⟨?_, ?_, rfl, rfl⟩ <;> simp [bucketerMaxDuration, mergerMaxDuration, h]

theorem duration_defaults_witness :
    bucketerMaxDuration exParamsNone = 20 ∧ mergerMaxDuration exParamsNone = 10 ∧
    (resolveCluster exParamsNone).maxDuration = bucketerMaxDuration exParamsNone ∧
    (resolveMerge exParamsNone).maxDuration = mergerMaxDuration exParamsNone :=
  duration_defaults exParamsNone rfl
